import Mathlib

/-!
# Verification of the stitch-cafe order / progression core

Shallow embedding of the order-generation and progression-tracking core of
the `stitch-cafe` bot, translated from the Python sources:

* `src/commands/order.py` — `generate_regular_order`, `_order_index`, and the
  order-construction part of `_handle_new_order` / `_handle_done`;
* `src/data/special_orders.py` — `SPECIAL_ORDERS`, `check_special_order`;
* `src/database.py` — `finish_order_and_level`, `save_last_order`,
  `save_active_order`, `clear_active_order`;
* `src/data/levels.py` — `LEVELS`, `ORDERS_PER_LEVEL`, `MAX_LEVEL`.

The dish catalog `data/dishes.py` (`DISHES_BY_LEVEL`) is not among the
sources, so every definition is parameterised by an abstract catalog
`Catalog := Nat → Option (List Dish)` (a Python dict from level to dish
list; `none` models an absent key).  Randomness (`random.choice`,
`random.shuffle`, `random.random() < p`) is modelled by explicit oracle
inputs, constrained by hypotheses (membership in the choice pool,
permutation of the shuffled list) in the theorems that need them.

`generate_regular_order` contains a `while` loop that re-scans the level-0
catalog without making progress once a full pass adds nothing; the
embedding runs a single pass and returns `none` when the Python code would
fail to return (loop forever, or raise `KeyError` when level 0 is absent).
-/

namespace StitchCafe

/-- A dish, drawn from the catalog: Python tuple `(name, crosses)`. -/
structure Dish where
  name : String
  crosses : Nat
deriving DecidableEq, Repr

/-- The dish catalog `DISHES_BY_LEVEL`: a dict from level to list of dishes;
`none` models a missing key. -/
def Catalog : Type := Nat → Option (List Dish)

/-- `opened` pool in `generate_regular_order`: concatenation of
`DISHES_BY_LEVEL.get(lv, [])` for `lv` in `range(0, level+1)`. -/
def openedPool (cat : Catalog) (level : Nat) : List Dish :=
  (List.range (level + 1)).flatMap fun lv => (cat lv).getD []

/-- `current_pool = DISHES_BY_LEVEL.get(level, DISHES_BY_LEVEL[0])` in
`generate_regular_order`: the pool at the user's exact level, falling back to
the level-0 pool when the key `level` is absent. -/
def currentPool (cat : Catalog) (level : Nat) : List Dish :=
  (cat level).getD ((cat 0).getD [])

/-- The greedy collection loop of `generate_regular_order`:
`for d in pool: if d not in take and len(take) < 3: take.append(d)`. -/
def takeLoop : List Dish → List Dish → List Dish
  | acc, [] => acc
  | acc, d :: rest =>
    if d ∉ acc ∧ acc.length < 3 then takeLoop (acc ++ [d]) rest
    else takeLoop acc rest

/-- One pass of the level-0 padding loop of `generate_regular_order`:
`for d in DISHES_BY_LEVEL[0]: if d not in take: take.append(d); if len(take) == 3: break`. -/
def padPass : List Dish → List Dish → List Dish
  | acc, [] => acc
  | acc, d :: rest =>
    let acc' := if d ∈ acc then acc else acc ++ [d]
    if acc'.length = 3 then acc' else padPass acc' rest

/-- `generate_regular_order(level)` from `src/commands/order.py`, with the
two random draws (`cur = random.choice(current_pool)` and the
`random.shuffle`d copy of `pool = [d for d in opened if d != cur]`) passed
in as oracle inputs.  After the greedy loop, the `while len(take) < 3` loop
walks the level-0 catalog; if a full pass leaves fewer than 3 dishes, every
level-0 dish is already in `take`, so the next pass adds nothing and the
Python loop never terminates — the embedding returns `none` in that case. -/
def generate_regular_order (cat : Catalog) (level : Nat) (cur : Dish)
    (shuffled : List Dish) : Option (List Dish) :=
  let take := takeLoop [cur] shuffled
  let padded := if take.length < 3 then padPass take ((cat 0).getD []) else take
  if padded.length < 3 then none else some (padded.take 3)

/-- Validity of the randomness oracle for `generate_regular_order`:
`cur` was drawn from `current_pool` and `shuffled` is a permutation of
`pool = [d for d in opened if d != cur]`. -/
def ValidDraw (cat : Catalog) (level : Nat) (cur : Dish) (shuffled : List Dish) : Prop :=
  cur ∈ currentPool cat level ∧
    shuffled.Perm ((openedPool cat level).filter (fun d => d ≠ cur))

/-- Behaviour type of a special event (`"type"` field in `SPECIAL_ORDERS`). -/
inductive SpecialType where
  | double_previous
  | regular
  | half_next
deriving DecidableEq, Repr

/-- One entry of the `SPECIAL_ORDERS` table in `src/data/special_orders.py`
(the `text_template` field is presentation-only and omitted; `probability`
is kept as a percentage for documentation — the outcome of
`random.random() < probability` is an oracle input). -/
structure SpecialConfig where
  dish : Option Dish
  probability : Nat
  min_order_index : Nat
  max_order_index : Nat
  user_flag : String
  type : SpecialType
deriving DecidableEq, Repr

/-- `SPECIAL_ORDERS` from `src/data/special_orders.py`, in dict insertion
order (the iteration order of `check_special_order`). -/
def SPECIAL_ORDERS : List (String × SpecialConfig) :=
  [("dirty_plate",
    { dish := none, probability := 15, min_order_index := 3, max_order_index := 40,
      user_flag := "has_dirty_plate_done", type := .double_previous }),
   ("student",
    { dish := some ⟨"🥡 Лапша быстрого приготовления", 100⟩, probability := 12,
      min_order_index := 3, max_order_index := 40,
      user_flag := "has_student_done", type := .regular }),
   ("critic",
    { dish := some ⟨"🦪 Устрицы", 1000⟩, probability := 10,
      min_order_index := 20, max_order_index := 40,
      user_flag := "has_critic_done", type := .regular }),
   ("second_chef",
    { dish := none, probability := 12, min_order_index := 3, max_order_index := 40,
      user_flag := "has_second_chef_done", type := .half_next })]

/-- The four one-time-event flags passed to `check_special_order` as the
`user_flags` dict. -/
structure UserFlags where
  has_student_done : Bool
  has_critic_done : Bool
  has_dirty_plate_done : Bool
  has_second_chef_done : Bool
deriving DecidableEq, Repr

/-- `user_flags.get(flag_name, 0)`: look a flag up by its name, defaulting
to false for unknown names. -/
def getFlag (f : UserFlags) (flagName : String) : Bool :=
  if flagName = "has_student_done" then f.has_student_done
  else if flagName = "has_critic_done" then f.has_critic_done
  else if flagName = "has_dirty_plate_done" then f.has_dirty_plate_done
  else if flagName = "has_second_chef_done" then f.has_second_chef_done
  else false

/-- The iteration of `check_special_order` over the `SPECIAL_ORDERS` items:
skip on order-index window (a bound of `0` is falsy in Python and disables
the check), skip on an already-set one-time flag, otherwise consult the
probability draw (`draws tag` is the outcome of `random.random() < p`). -/
def checkSpecialList (idx : Nat) (flags : UserFlags) (draws : String → Bool) :
    List (String × SpecialConfig) → Option (String × SpecialConfig)
  | [] => none
  | (tag, cfg) :: rest =>
    if cfg.min_order_index ≠ 0 ∧ idx < cfg.min_order_index then
      checkSpecialList idx flags draws rest
    else if cfg.max_order_index ≠ 0 ∧ cfg.max_order_index < idx then
      checkSpecialList idx flags draws rest
    else if getFlag flags cfg.user_flag then
      checkSpecialList idx flags draws rest
    else if draws tag then some (tag, cfg)
    else checkSpecialList idx flags draws rest

/-- `check_special_order(order_index, user_flags)` from
`src/data/special_orders.py`, with the probability draws as an oracle. -/
def check_special_order (idx : Nat) (flags : UserFlags) (draws : String → Bool) :
    Option (String × SpecialConfig) :=
  checkSpecialList idx flags draws SPECIAL_ORDERS

/-- A persisted last order: the `last_order_json` blob
`{"dishes": ..., "crosses": ..., "tag": ...}`. -/
structure LastOrder where
  dishes : List Dish
  crosses : Nat
  tag : Option String
deriving DecidableEq, Repr

/-- A persisted active order: the `active_order_json` blob
`{"dishes": ..., "tag": ...}`. -/
structure ActiveOrder where
  dishes : List Dish
  tag : Option String
deriving DecidableEq, Repr

/-- A row of the `users` table (the fields the core logic reads/writes). -/
structure User where
  level : Nat
  total_orders : Nat
  total_crosses : Nat
  has_student_done : Bool
  has_critic_done : Bool
  has_dirty_plate_done : Bool
  has_second_chef_done : Bool
  next_order_half : Bool
  last_order : Option LastOrder
  active_order : Option ActiveOrder
deriving DecidableEq, Repr

/-- The flags dict `_handle_new_order` builds from the user row. -/
def flagsOf (u : User) : UserFlags :=
  ⟨u.has_student_done, u.has_critic_done, u.has_dirty_plate_done, u.has_second_chef_done⟩

/-- `last_order_was_special` in `_handle_new_order`: the previous order is
consulted only when `total_orders > 0`, and counts as special when its
stored `tag` is truthy. -/
def lastSpecial (u : User) : Bool :=
  decide (0 < u.total_orders) &&
    (match u.last_order with
     | some lo => lo.tag.isSome
     | none => false)

/-- The randomness consumed by one `_handle_new_order` call: the
per-event probability draws, `random.choice` and `random.shuffle`. -/
structure GenRand where
  draws : String → Bool
  cur : Dish
  shuffled : List Dish

/-- The special-order lookup of `_handle_new_order`: `check_special_order`
is only invoked when the previous completed order was not special
(`idx = _order_index(total_orders) = total_orders + 1`). -/
def specialResultOf (u : User) (r : GenRand) : Option (String × SpecialConfig) :=
  if lastSpecial u then none
  else check_special_order (u.total_orders + 1) (flagsOf u) r.draws

/-- `[(name, max(1, crosses // 2)) for name, crosses in dishes]`. -/
def halveDishes (ds : List Dish) : List Dish :=
  ds.map fun d => ⟨d.name, max 1 (d.crosses / 2)⟩

/-- `[(name, crosses * 2) for name, crosses in last_dishes]`. -/
def doubleDishes (ds : List Dish) : List Dish :=
  ds.map fun d => ⟨d.name, d.crosses * 2⟩

/-- The regular-order section at the end of `_handle_new_order`: generate a
regular order; if `next_order_half` is set, halve every dish and clear the
flag; save the result as the (untagged) active order.  `none` propagates a
non-returning `generate_regular_order`. -/
def regularBranch (cat : Catalog) (u : User) (r : GenRand) : Option User :=
  match generate_regular_order cat u.level r.cur r.shuffled with
  | none => none
  | some ds =>
    if u.next_order_half then
      some { u with next_order_half := false,
                    active_order := some ⟨halveDishes ds, none⟩ }
    else
      some { u with active_order := some ⟨ds, none⟩ }

/-- The order-construction core of `_handle_new_order` (after the
active-order guard), acting on the persisted user row:

* a triggering `double_previous` event doubles the last order's dishes and
  saves them as the active order with the event's tag, falling through to
  the regular branch when no last order exists;
* a triggering `half_next` event saves no order at all: it sets
  `has_second_chef_done = 1` and `next_order_half = 1` and returns;
* a triggering `regular` event saves the single configured dish with the
  event's tag;
* otherwise the regular branch runs. -/
def newOrder (cat : Catalog) (u : User) (r : GenRand) : Option User :=
  match specialResultOf u r with
  | some (tag, cfg) =>
    match cfg.type with
    | .double_previous =>
      match u.last_order with
      | some lo =>
        some { u with active_order := some ⟨doubleDishes lo.dishes, some tag⟩ }
      | none => regularBranch cat u r
    | .half_next =>
      some { u with has_second_chef_done := true, next_order_half := true }
    | .regular =>
      some { u with active_order := some ⟨cfg.dish.elim [] (fun d => [d]), some tag⟩ }
  | none => regularBranch cat u r

/-- `LEVELS` from `src/data/levels.py`. -/
def LEVELS : Nat → Option String
  | 0 => some "🥄 Стажёр"
  | 1 => some "🍳 Помощник повара"
  | 2 => some "👨‍🍳 Повар"
  | 3 => some "🧑‍🍳 Су-шеф"
  | 4 => some "👩‍🍳 Шеф-повар"
  | _ => none

/-- `ORDERS_PER_LEVEL = 10` from `src/data/levels.py`. -/
def ORDERS_PER_LEVEL : Nat := 10

/-- `MAX_LEVEL = max(LEVELS.keys()) = 4` from `src/data/levels.py`. -/
def MAX_LEVEL : Nat := 4

/-- `LEVELS.get(level, f"Уровень {level}")` in `finish_order_and_level`. -/
def levelTitle (level : Nat) : String :=
  (LEVELS level).getD ("Уровень " ++ toString level)

/-- The one-time-flag update of `finish_order_and_level`: the `elif` chain
on the completed order's tag (no-op for `None` or unrecognised tags). -/
def setFlagFromTag (u : User) (tag : Option String) : User :=
  if tag = some "critic" then { u with has_critic_done := true }
  else if tag = some "student" then { u with has_student_done := true }
  else if tag = some "dirty_plate" then { u with has_dirty_plate_done := true }
  else if tag = some "second_chef" then { u with has_second_chef_done := true }
  else u

/-- The last-order retention step of `finish_order_and_level`:
`save_last_order` is called only when the active-order blob is present and
its dish list is non-empty. -/
def saveLastStep (u : User) (tag : Option String) (order_crosses : Nat) : User :=
  match u.active_order with
  | some ao =>
    if ao.dishes ≠ [] then
      { u with last_order := some ⟨ao.dishes, order_crosses, tag⟩ }
    else u
  | none => u

/-- The value returned by `finish_order_and_level`:
`(total_orders, level_changed, title, total_crosses)`. -/
structure FinishResult where
  total : Nat
  level_changed : Bool
  title : String
  total_crosses : Nat
deriving DecidableEq, Repr

/-- `finish_order_and_level(db, user_id, tag, order_crosses)` from
`src/database.py`: increment `total_orders`, accrue `total_crosses`, set
the tag's one-time flag, retain the non-empty active order as the last
order, level up when the new total is a multiple of `ORDERS_PER_LEVEL` and
the level is below `MAX_LEVEL`, and clear the active order.  Returns the
updated row together with the Python return tuple. -/
def finish_order_and_level (u : User) (tag : Option String) (order_crosses : Nat) :
    User × FinishResult :=
  let total := u.total_orders + 1
  let tcr := u.total_crosses + order_crosses
  let u1 := saveLastStep (setFlagFromTag u tag) tag order_crosses
  let newLevel :=
    if total % ORDERS_PER_LEVEL = 0 ∧ u.level < MAX_LEVEL then u.level + 1 else u.level
  let u2 := { u1 with total_orders := total, total_crosses := tcr,
                      level := newLevel, active_order := none }
  (u2, ⟨total, decide (newLevel ≠ u.level), levelTitle newLevel, tcr⟩)

/-- The sequence of states committed to storage during one
`finish_order_and_level` call: `save_last_order` issues its own
`db.commit()` (committing only the `last_order_json` change, and only when
the active order has dishes) before the single `UPDATE` that commits every
remaining field.  A failure between the two commits leaves exactly the
states of `(finishCommits ...).dropLast` on disk. -/
def finishCommits (u : User) (tag : Option String) (order_crosses : Nat) : List User :=
  let lastCommit :=
    match u.active_order with
    | some ao =>
      if ao.dishes ≠ [] then
        [{ u with last_order := some ⟨ao.dishes, order_crosses, tag⟩ }]
      else []
    | none => []
  lastCommit ++ [(finish_order_and_level u tag order_crosses).1]

/-- `sum(v for (_, v) in dishes)`. -/
def orderTotal (ds : List Dish) : Nat := (ds.map Dish.crosses).sum

/-- The completion core of `_handle_done`: `none` when no active order
exists (early return), otherwise `finish_order_and_level` on the active
order's tag and crosses total (followed by `clear_active_order`, a no-op on
the already-cleared row).  Also returns the completed order's tag. -/
def doneStep (u : User) : Option (User × FinishResult × Option String) :=
  match u.active_order with
  | none => none
  | some ao =>
    let p := finish_order_and_level u ao.tag (orderTotal ao.dishes)
    some (p.1, p.2, ao.tag)

/-- One generate→complete cycle: run `newOrder`; if it produced an active
order, complete it.  Results: `none` — generation did not return;
`some (u', none)` — no order was created this round (the `half_next`
event); `some (u', some t)` — an order carrying tag `t` was completed. -/
def cycle (cat : Catalog) (u : User) (r : GenRand) :
    Option (User × Option (Option String)) :=
  match newOrder cat u r with
  | none => none
  | some u1 =>
    match u1.active_order with
    | none => some (u1, none)
    | some ao =>
      some ((finish_order_and_level u1 ao.tag (orderTotal ao.dishes)).1, some ao.tag)

/-- Run a sequence of generate→complete cycles, collecting the tags of the
completed orders in completion order (rounds that complete no order
contribute nothing; a non-returning generation ends the run). -/
def runCycles (cat : Catalog) : User → List GenRand → List (Option String)
  | _, [] => []
  | u, r :: rs =>
    match cycle cat u r with
    | none => []
    | some (u', none) => runCycles cat u' rs
    | some (u', some t) => t :: runCycles cat u' rs

/-! ## Lemmas about the greedy loop and the padding pass -/

theorem takeLoop_nil (acc : List Dish) : takeLoop acc [] = acc := by
  unfold takeLoop
  rfl

theorem padPass_nil (acc : List Dish) : padPass acc [] = acc := by
  unfold padPass
  rfl

theorem takeLoop_cons (acc : List Dish) (d : Dish) (rest : List Dish) :
    takeLoop acc (d :: rest) =
      if d ∉ acc ∧ acc.length < 3 then takeLoop (acc ++ [d]) rest
      else takeLoop acc rest := rfl

theorem padPass_cons (acc : List Dish) (d : Dish) (rest : List Dish) :
    padPass acc (d :: rest) =
      (if (if d ∈ acc then acc else acc ++ [d]).length = 3
       then (if d ∈ acc then acc else acc ++ [d])
       else padPass (if d ∈ acc then acc else acc ++ [d]) rest) := rfl

theorem takeLoop_append (pool : List Dish) :
    ∀ acc : List Dish, ∃ tail, takeLoop acc pool = acc ++ tail := by
  induction pool with
  | nil => intro acc; exact ⟨[], by rw [List.append_nil, takeLoop_nil]⟩
  | cons d rest ih =>
    intro acc
    rw [takeLoop_cons]
    by_cases hd : d ∉ acc ∧ acc.length < 3
    · obtain ⟨t, ht⟩ := ih (acc ++ [d])
      exact ⟨d :: t, by rw [if_pos hd, ht]; simp⟩
    · obtain ⟨t, ht⟩ := ih acc
      exact ⟨t, by rw [if_neg hd, ht]⟩

theorem padPass_append (l : List Dish) :
    ∀ acc : List Dish, ∃ tail, padPass acc l = acc ++ tail := by
  induction l with
  | nil => intro acc; exact ⟨[], by rw [List.append_nil, padPass_nil]⟩
  | cons d rest ih =>
    intro acc
    rw [padPass_cons]
    by_cases hd : d ∈ acc
    · rw [if_pos hd]
      by_cases h3 : acc.length = 3
      · exact ⟨[], by rw [if_pos h3]; simp⟩
      · obtain ⟨t, ht⟩ := ih acc
        exact ⟨t, by rw [if_neg h3, ht]⟩
    · rw [if_neg hd]
      by_cases h3 : (acc ++ [d]).length = 3
      · exact ⟨[d], by rw [if_pos h3]⟩
      · obtain ⟨t, ht⟩ := ih (acc ++ [d])
        exact ⟨d :: t, by rw [if_neg h3, ht]; simp⟩

theorem takeLoop_spec (pool : List Dish) :
    ∀ acc : List Dish, acc.Nodup → acc.length ≤ 3 →
      (takeLoop acc pool).Nodup ∧
      (takeLoop acc pool).length = min 3 (acc.toFinset ∪ pool.toFinset).card ∧
      (takeLoop acc pool).toFinset ⊆ acc.toFinset ∪ pool.toFinset := by
  induction pool with
  | nil =>
    intro acc hnd hlen
    refine ⟨hnd, ?_, by simp [takeLoop]⟩
    show acc.length = min 3 (acc.toFinset ∪ ([] : List Dish).toFinset).card
    simp only [List.toFinset_nil, Finset.union_empty]
    rw [List.toFinset_card_of_nodup hnd]
    omega
  | cons d rest ih =>
    intro acc hnd hlen
    rw [takeLoop_cons]
    by_cases hd : d ∉ acc ∧ acc.length < 3
    · rw [if_pos hd]
      have hnd' : (acc ++ [d]).Nodup := by
        simp [List.nodup_append, hd.1, hnd]
      have hlen' : (acc ++ [d]).length ≤ 3 := by
        simp only [List.length_append, List.length_singleton]; omega
      obtain ⟨h1, h2, h3⟩ := ih (acc ++ [d]) hnd' hlen'
      have hset : (acc ++ [d]).toFinset ∪ rest.toFinset =
          acc.toFinset ∪ (d :: rest).toFinset := by
        ext x
        simp only [Finset.mem_union, List.mem_toFinset, List.mem_append,
          List.mem_singleton, List.mem_cons]
        tauto
      exact ⟨h1, by rw [h2, hset], by rw [← hset]; exact h3⟩
    · rw [if_neg hd]
      obtain ⟨h1, h2, h3⟩ := ih acc hnd hlen
      by_cases hmem : d ∈ acc
      · have hset : acc.toFinset ∪ (d :: rest).toFinset =
            acc.toFinset ∪ rest.toFinset := by
          ext x
          simp only [Finset.mem_union, List.mem_toFinset, List.mem_cons]
          constructor
          · rintro (h | rfl | h)
            · exact Or.inl h
            · exact Or.inl hmem
            · exact Or.inr h
          · rintro (h | h)
            · exact Or.inl h
            · exact Or.inr (Or.inr h)
        exact ⟨h1, by rw [h2, hset], by rw [hset]; exact h3⟩
      · have h3' : acc.length = 3 := by
          rcases Nat.lt_or_ge acc.length 3 with h | h
          · exact absurd ⟨hmem, h⟩ hd
          · omega
        have hcard : acc.toFinset.card = 3 := by
          rw [List.toFinset_card_of_nodup hnd, h3']
        have hle1 : 3 ≤ (acc.toFinset ∪ rest.toFinset).card :=
          hcard ▸ Finset.card_le_card Finset.subset_union_left
        have hle2 : 3 ≤ (acc.toFinset ∪ (d :: rest).toFinset).card :=
          hcard ▸ Finset.card_le_card Finset.subset_union_left
        refine ⟨h1, by rw [h2]; omega, ?_⟩
        refine h3.trans (Finset.union_subset_union_right ?_)
        intro x hx
        simp only [List.mem_toFinset, List.mem_cons] at hx ⊢
        exact Or.inr hx

theorem padPass_spec (l : List Dish) :
    ∀ acc : List Dish, acc.Nodup →
      (padPass acc l).Nodup ∧
      (padPass acc l).toFinset ⊆ acc.toFinset ∪ l.toFinset := by
  induction l with
  | nil => intro acc h; exact ⟨h, by simp [padPass]⟩
  | cons d rest ih =>
    intro acc hnd
    rw [padPass_cons]
    have hsubcons : ∀ s : Finset Dish,
        s ⊆ acc.toFinset ∪ rest.toFinset → s ⊆ acc.toFinset ∪ (d :: rest).toFinset := by
      intro s hs
      refine hs.trans (Finset.union_subset_union_right ?_)
      intro x hx
      simp only [List.mem_toFinset, List.mem_cons] at hx ⊢
      exact Or.inr hx
    have happcons : (acc ++ [d]).toFinset ∪ rest.toFinset ⊆
        acc.toFinset ∪ (d :: rest).toFinset := by
      intro x hx
      simp only [Finset.mem_union, List.mem_toFinset, List.mem_append,
        List.mem_singleton, List.mem_cons] at hx ⊢
      tauto
    by_cases hd : d ∈ acc
    · rw [if_pos hd]
      by_cases h3 : acc.length = 3
      · rw [if_pos h3]
        exact ⟨hnd, hsubcons _ Finset.subset_union_left⟩
      · rw [if_neg h3]
        obtain ⟨h1, h2⟩ := ih acc hnd
        exact ⟨h1, hsubcons _ h2⟩
    · rw [if_neg hd]
      have hnd' : (acc ++ [d]).Nodup := by simp [List.nodup_append, hd, hnd]
      by_cases h3 : (acc ++ [d]).length = 3
      · rw [if_pos h3]
        refine ⟨hnd', ?_⟩
        exact Finset.Subset.trans Finset.subset_union_left happcons
      · rw [if_neg h3]
        obtain ⟨h1, h2⟩ := ih (acc ++ [d]) hnd'
        exact ⟨h1, h2.trans happcons⟩

/-! ## Lemmas about `generate_regular_order` -/

theorem mem_openedPool {cat : Catalog} {level lv : Nat} {d : Dish}
    (hlv : lv < level + 1) (hd : d ∈ (cat lv).getD []) : d ∈ openedPool cat level := by
  unfold openedPool
  exact List.mem_flatMap.mpr ⟨lv, List.mem_range.mpr hlv, hd⟩

theorem cur_mem_openedPool {cat : Catalog} {level : Nat} {cur : Dish}
    (h : cur ∈ currentPool cat level) : cur ∈ openedPool cat level := by
  unfold currentPool at h
  rcases hc : cat level with _ | p
  · rw [hc, Option.getD_none] at h
    exact mem_openedPool (Nat.succ_pos level) h
  · rw [hc, Option.getD_some] at h
    exact mem_openedPool (Nat.lt_succ_self level) (by rw [hc, Option.getD_some]; exact h)

theorem lvl0_subset_openedPool {cat : Catalog} {level : Nat} {d : Dish}
    (hd : d ∈ (cat 0).getD []) : d ∈ openedPool cat level :=
  mem_openedPool (Nat.succ_pos level) hd

theorem insert_shuffled_toFinset {cat : Catalog} {level : Nat} {cur : Dish}
    {shuffled : List Dish}
    (hcur : cur ∈ currentPool cat level)
    (hsh : shuffled.Perm ((openedPool cat level).filter (fun d => d ≠ cur))) :
    insert cur shuffled.toFinset = (openedPool cat level).toFinset := by
  rw [List.toFinset_eq_of_perm _ _ hsh, List.toFinset_filter]
  have : (fun d => decide (d ≠ cur)) = fun d => d ≠ cur := by
    funext d; simp
  ext x
  simp only [Finset.mem_insert, Finset.mem_filter, List.mem_toFinset, decide_eq_true_eq]
  constructor
  · rintro (rfl | ⟨hx, _⟩)
    · exact cur_mem_openedPool hcur
    · exact hx
  · intro hx
    by_cases hxc : x = cur
    · exact Or.inl hxc
    · exact Or.inr ⟨hx, hxc⟩

theorem generate_some_length {cat : Catalog} {level : Nat} {cur : Dish}
    {shuffled ds : List Dish}
    (h : generate_regular_order cat level cur shuffled = some ds) : ds.length = 3 := by
  simp only [generate_regular_order] at h
  split_ifs at h with h1 h2
  · have := Option.some.inj h
    rw [← this, List.length_take]
    omega
  · have := Option.some.inj h
    rw [← this, List.length_take]
    omega

theorem generate_some_head {cat : Catalog} {level : Nat} {cur : Dish}
    {shuffled ds : List Dish}
    (h : generate_regular_order cat level cur shuffled = some ds) :
    ∃ tail, ds = cur :: tail := by
  simp only [generate_regular_order] at h
  obtain ⟨t1, ht1⟩ := takeLoop_append shuffled [cur]
  obtain ⟨t2, ht2⟩ := padPass_append ((cat 0).getD []) (takeLoop [cur] shuffled)
  split_ifs at h with h1 h2
  · have hds := Option.some.inj h
    rw [ht2, ht1] at hds
    exact ⟨(t1 ++ t2).take 2, by rw [← hds]; simp⟩
  · have hds := Option.some.inj h
    rw [ht1] at hds
    exact ⟨t1.take 2, by rw [← hds]; simp⟩

theorem generate_some_subset {cat : Catalog} {level : Nat} {cur : Dish}
    {shuffled ds : List Dish}
    (h : generate_regular_order cat level cur shuffled = some ds) :
    ∀ d ∈ ds, d = cur ∨ d ∈ shuffled ∨ d ∈ (cat 0).getD [] := by
  intro d hd
  simp only [generate_regular_order] at h
  have h1 := takeLoop_spec shuffled [cur] (by simp) (by simp)
  have h2 := padPass_spec ((cat 0).getD []) (takeLoop [cur] shuffled) h1.1
  split_ifs at h with ha hb
  · have hds := Option.some.inj h
    have hmem : d ∈ padPass (takeLoop [cur] shuffled) ((cat 0).getD []) := by
      rw [← hds] at hd; exact List.take_subset _ _ hd
    have hun := h2.2 (List.mem_toFinset.mpr hmem)
    rcases Finset.mem_union.mp hun with hx | hx
    · have hun2 := h1.2.2 hx
      rcases Finset.mem_union.mp hun2 with hy | hy
      · simp only [List.toFinset_cons, List.toFinset_nil, insert_emptyc_eq,
          Finset.mem_singleton] at hy
        exact Or.inl hy
      · exact Or.inr (Or.inl (List.mem_toFinset.mp hy))
    · exact Or.inr (Or.inr (List.mem_toFinset.mp hx))
  · have hds := Option.some.inj h
    have hmem : d ∈ takeLoop [cur] shuffled := by
      rw [← hds] at hd; exact List.take_subset _ _ hd
    have hun := h1.2.2 (List.mem_toFinset.mpr hmem)
    rcases Finset.mem_union.mp hun with hy | hy
    · simp only [List.toFinset_cons, List.toFinset_nil, insert_emptyc_eq,
        Finset.mem_singleton] at hy
      exact Or.inl hy
    · exact Or.inr (Or.inl (List.mem_toFinset.mp hy))

theorem generate_isSome_iff {cat : Catalog} {level : Nat} {cur : Dish}
    {shuffled : List Dish}
    (hcur : cur ∈ currentPool cat level)
    (hsh : shuffled.Perm ((openedPool cat level).filter (fun d => d ≠ cur))) :
    (∃ ds, generate_regular_order cat level cur shuffled = some ds) ↔
      3 ≤ (openedPool cat level).toFinset.card := by
  have hins := insert_shuffled_toFinset hcur hsh
  have hsp := takeLoop_spec shuffled [cur] (by simp) (by simp)
  have hsetfin : ([cur] : List Dish).toFinset ∪ shuffled.toFinset =
      (openedPool cat level).toFinset := by
    rw [← hins]
    ext x
    simp only [Finset.mem_union, List.toFinset_cons, List.toFinset_nil,
      insert_emptyc_eq, Finset.mem_singleton, Finset.mem_insert]
  have hlen : (takeLoop [cur] shuffled).length =
      min 3 (openedPool cat level).toFinset.card := by
    rw [hsp.2.1, hsetfin]
  constructor
  · rintro ⟨ds, hds⟩
    by_contra hcard
    push_neg at hcard
    -- the greedy loop collects at most card < 3 dishes, and the padding pass
    -- cannot push past the number of distinct opened dishes
    have htl : (takeLoop [cur] shuffled).length < 3 := by omega
    simp only [generate_regular_order] at hds
    rw [if_pos htl] at hds
    have hpp := padPass_spec ((cat 0).getD []) (takeLoop [cur] shuffled) hsp.1
    have hsub : (padPass (takeLoop [cur] shuffled) ((cat 0).getD [])).toFinset ⊆
        (openedPool cat level).toFinset := by
      refine hpp.2.trans ?_
      apply Finset.union_subset
      · rw [← hsetfin]
        exact hsp.2.2.trans (by rw [hsetfin, ← hsetfin])
      · intro x hx
        exact List.mem_toFinset.mpr (lvl0_subset_openedPool (List.mem_toFinset.mp hx))
    have hppl : (padPass (takeLoop [cur] shuffled) ((cat 0).getD [])).length < 3 := by
      have := Finset.card_le_card hsub
      rw [List.toFinset_card_of_nodup hpp.1] at this
      omega
    rw [if_pos hppl] at hds
    exact absurd hds (by simp)
  · intro hcard
    have htl : (takeLoop [cur] shuffled).length = 3 := by omega
    refine ⟨(takeLoop [cur] shuffled).take 3, ?_⟩
    simp only [generate_regular_order]
    rw [if_neg (show ¬(takeLoop [cur] shuffled).length < 3 by omega),
      if_neg (show ¬(takeLoop [cur] shuffled).length < 3 by omega)]

/-! ## Lemmas about `check_special_order` -/

theorem checkSpecialList_sound {idx : Nat} {flags : UserFlags} {draws : String → Bool} :
    ∀ (l : List (String × SpecialConfig)) (t : String) (cfg : SpecialConfig),
      checkSpecialList idx flags draws l = some (t, cfg) →
        (t, cfg) ∈ l ∧ getFlag flags cfg.user_flag = false := by
  intro l
  induction l with
  | nil =>
    intro t cfg h
    exact absurd h (by simp [checkSpecialList])
  | cons p rest ih =>
    intro t cfg h
    obtain ⟨ptag, pcfg⟩ := p
    simp only [checkSpecialList] at h
    split_ifs at h with h1 h2 h3 h4
    · exact ⟨List.mem_cons_of_mem _ (ih t cfg h).1, (ih t cfg h).2⟩
    · exact ⟨List.mem_cons_of_mem _ (ih t cfg h).1, (ih t cfg h).2⟩
    · exact ⟨List.mem_cons_of_mem _ (ih t cfg h).1, (ih t cfg h).2⟩
    · obtain ⟨rfl, rfl⟩ := Prod.mk.injEq .. ▸ Option.some.inj h
      exact ⟨List.mem_cons_self _ _, Bool.not_eq_true _ ▸ h3⟩
    · exact ⟨List.mem_cons_of_mem _ (ih t cfg h).1, (ih t cfg h).2⟩

theorem check_special_order_sound {idx : Nat} {flags : UserFlags}
    {draws : String → Bool} {t : String} {cfg : SpecialConfig}
    (h : check_special_order idx flags draws = some (t, cfg)) :
    (t, cfg) ∈ SPECIAL_ORDERS ∧ getFlag flags cfg.user_flag = false :=
  checkSpecialList_sound SPECIAL_ORDERS t cfg h

theorem special_orders_table : ∀ p ∈ SPECIAL_ORDERS,
    (p.2.type = SpecialType.regular → p.2.dish.isSome = true) ∧
    (p.2.type = SpecialType.double_previous → p.1 = "dirty_plate") ∧
    (p.2.type = SpecialType.half_next → p.1 = "second_chef") ∧
    (p.1 = "student" → p.2.user_flag = "has_student_done") ∧
    (p.1 = "critic" → p.2.user_flag = "has_critic_done") ∧
    (p.1 = "dirty_plate" → p.2.user_flag = "has_dirty_plate_done") ∧
    (p.1 = "second_chef" → p.2.user_flag = "has_second_chef_done") := by
  decide

/-! ## Lemmas about `finish_order_and_level` -/

theorem setFlag_frame (u : User) (tag : Option String) :
    (setFlagFromTag u tag).level = u.level ∧
    (setFlagFromTag u tag).total_orders = u.total_orders ∧
    (setFlagFromTag u tag).total_crosses = u.total_crosses ∧
    (setFlagFromTag u tag).next_order_half = u.next_order_half ∧
    (setFlagFromTag u tag).last_order = u.last_order ∧
    (setFlagFromTag u tag).active_order = u.active_order := by
  unfold setFlagFromTag
  split_ifs <;> simp

theorem finish_user_parts (u : User) (tag : Option String) (c : Nat) :
    ((finish_order_and_level u tag c).1).total_orders = u.total_orders + 1 ∧
    ((finish_order_and_level u tag c).1).total_crosses = u.total_crosses + c ∧
    ((finish_order_and_level u tag c).1).level =
      (if (u.total_orders + 1) % ORDERS_PER_LEVEL = 0 ∧ u.level < MAX_LEVEL
       then u.level + 1 else u.level) ∧
    ((finish_order_and_level u tag c).1).active_order = none := by
  simp [finish_order_and_level]

theorem finish_last_order (u : User) (tag : Option String) (c : Nat) :
    ((finish_order_and_level u tag c).1).last_order =
      (match u.active_order with
       | some ao => if ao.dishes = [] then u.last_order else some ⟨ao.dishes, c, tag⟩
       | none => u.last_order) := by
  have hf := (setFlag_frame u tag).2.2.2.2
  simp only [finish_order_and_level, saveLastStep, hf.1, hf.2]
  cases u.active_order with
  | none => simp [hf.1]
  | some ao =>
    by_cases hd : ao.dishes = []
    · simp [hd, hf.1]
    · simp [hd]

theorem finish_flags (u : User) (tag : Option String) (c : Nat) :
    ((finish_order_and_level u tag c).1).has_student_done =
        (setFlagFromTag u tag).has_student_done ∧
    ((finish_order_and_level u tag c).1).has_critic_done =
        (setFlagFromTag u tag).has_critic_done ∧
    ((finish_order_and_level u tag c).1).has_dirty_plate_done =
        (setFlagFromTag u tag).has_dirty_plate_done ∧
    ((finish_order_and_level u tag c).1).has_second_chef_done =
        (setFlagFromTag u tag).has_second_chef_done := by
  simp only [finish_order_and_level, saveLastStep]
  cases (setFlagFromTag u tag).active_order with
  | none => simp
  | some ao =>
    by_cases hd : ao.dishes = []
    · simp [hd]
    · simp [hd]

theorem finish_next_half (u : User) (tag : Option String) (c : Nat) :
    ((finish_order_and_level u tag c).1).next_order_half = u.next_order_half := by
  have hf := (setFlag_frame u tag).2.2.2
  simp only [finish_order_and_level, saveLastStep]
  cases (setFlagFromTag u tag).active_order with
  | none => simp [hf.1]
  | some ao =>
    by_cases hd : ao.dishes = []
    · simp [hd, hf.1]
    · simp [hd, hf.1]

/-! ## Lemmas about `newOrder` and the generate→complete cycle -/

theorem specialResultOf_of_lastSpecial {u : User} {r : GenRand}
    (h : lastSpecial u = true) : specialResultOf u r = none := by
  unfold specialResultOf
  rw [if_pos h]

theorem regularBranch_some {cat : Catalog} {u : User} {r : GenRand} {u' : User}
    (h : regularBranch cat u r = some u') :
    ∃ ds, generate_regular_order cat u.level r.cur r.shuffled = some ds ∧ ds ≠ [] ∧
      ((u.next_order_half = true ∧
          u' = { u with next_order_half := false,
                        active_order := some ⟨halveDishes ds, none⟩ }) ∨
       (u.next_order_half = false ∧
          u' = { u with active_order := some ⟨ds, none⟩ })) := by
  unfold regularBranch at h
  cases hg : generate_regular_order cat u.level r.cur r.shuffled with
  | none => rw [hg] at h; exact absurd h (by simp)
  | some ds =>
    simp only [hg] at h
    have hlen := generate_some_length hg
    have hne : ds ≠ [] := by
      intro hnil
      rw [hnil] at hlen
      simp at hlen
    by_cases hh : u.next_order_half = true
    · rw [if_pos hh] at h
      exact ⟨ds, rfl, hne, Or.inl ⟨hh, (Option.some.inj h).symm⟩⟩
    · rw [if_neg hh] at h
      exact ⟨ds, rfl, hne,
        Or.inr ⟨Bool.not_eq_true _ ▸ hh, (Option.some.inj h).symm⟩⟩

theorem newOrder_frame {cat : Catalog} {u : User} {r : GenRand} {u' : User}
    (h : newOrder cat u r = some u') :
    u'.level = u.level ∧ u'.total_orders = u.total_orders ∧
    u'.total_crosses = u.total_crosses ∧ u'.last_order = u.last_order ∧
    u'.has_student_done = u.has_student_done ∧
    u'.has_critic_done = u.has_critic_done ∧
    u'.has_dirty_plate_done = u.has_dirty_plate_done := by
  unfold newOrder at h
  cases hspec : specialResultOf u r with
  | none =>
    simp only [hspec] at h
    obtain ⟨ds, _, _, hcase⟩ := regularBranch_some h
    rcases hcase with ⟨_, rfl⟩ | ⟨_, rfl⟩ <;> exact ⟨rfl, rfl, rfl, rfl, rfl, rfl, rfl⟩
  | some p =>
    obtain ⟨t, cfg⟩ := p
    simp only [hspec] at h
    cases htype : cfg.type with
    | double_previous =>
      simp only [htype] at h
      cases hlo : u.last_order with
      | some lo =>
        simp only [hlo] at h
        obtain rfl := Option.some.inj h
        exact ⟨rfl, rfl, rfl, rfl, rfl, rfl, rfl⟩
      | none =>
        simp only [hlo] at h
        obtain ⟨ds, _, _, hcase⟩ := regularBranch_some h
        rcases hcase with ⟨_, rfl⟩ | ⟨_, rfl⟩ <;> exact ⟨rfl, rfl, rfl, hlo, rfl, rfl, rfl⟩
    | half_next =>
      simp only [htype] at h
      obtain rfl := Option.some.inj h
      exact ⟨rfl, rfl, rfl, rfl, rfl, rfl, rfl⟩
    | regular =>
      simp only [htype] at h
      obtain rfl := Option.some.inj h
      exact ⟨rfl, rfl, rfl, rfl, rfl, rfl, rfl⟩

theorem newOrder_tag_source {cat : Catalog} {u : User} {r : GenRand} {u' : User}
    {ao : ActiveOrder} (hua : u.active_order = none)
    (h : newOrder cat u r = some u')
    (hao : u'.active_order = some ao) :
    ao.tag = none ∨
      ∃ t cfg, specialResultOf u r = some (t, cfg) ∧ ao.tag = some t ∧
        cfg.type ≠ SpecialType.half_next ∧
        (cfg.type = SpecialType.double_previous →
          ∃ lo, u.last_order = some lo ∧ ao.dishes = doubleDishes lo.dishes) ∧
        (cfg.type = SpecialType.regular →
          ao.dishes = cfg.dish.elim [] (fun d => [d])) := by
  unfold newOrder at h
  cases hspec : specialResultOf u r with
  | none =>
    simp only [hspec] at h
    obtain ⟨ds, _, _, hcase⟩ := regularBranch_some h
    rcases hcase with ⟨_, rfl⟩ | ⟨_, rfl⟩ <;>
      · simp only [Option.some.injEq] at hao
        rw [← hao]
        exact Or.inl rfl
  | some p =>
    obtain ⟨t, cfg⟩ := p
    simp only [hspec] at h
    cases htype : cfg.type with
    | double_previous =>
      simp only [htype] at h
      cases hlo : u.last_order with
      | some lo =>
        simp only [hlo] at h
        obtain rfl := Option.some.inj h
        simp only [Option.some.injEq] at hao
        rw [← hao]
        refine Or.inr ⟨t, cfg, rfl, rfl, ?_, ?_, ?_⟩
        · rw [htype]; simp
        · intro _
          exact ⟨lo, rfl, rfl⟩
        · intro hr
          rw [htype] at hr
          cases hr
      | none =>
        simp only [hlo] at h
        obtain ⟨ds, _, _, hcase⟩ := regularBranch_some h
        rcases hcase with ⟨_, rfl⟩ | ⟨_, rfl⟩ <;>
          · simp only [Option.some.injEq] at hao
            rw [← hao]
            exact Or.inl rfl
    | half_next =>
      simp only [htype] at h
      obtain rfl := Option.some.inj h
      have hao' : u.active_order = some ao := hao
      rw [hua] at hao'
      cases hao'
    | regular =>
      simp only [htype] at h
      obtain rfl := Option.some.inj h
      simp only [Option.some.injEq] at hao
      rw [← hao]
      refine Or.inr ⟨t, cfg, rfl, rfl, ?_, ?_, ?_⟩
      · rw [htype]; simp
      · intro hdp
        rw [htype] at hdp
        cases hdp
      · intro _
        rfl

theorem specialResultOf_some {u : User} {r : GenRand} {t : String} {cfg : SpecialConfig}
    (h : specialResultOf u r = some (t, cfg)) :
    lastSpecial u = false ∧
      check_special_order (u.total_orders + 1) (flagsOf u) r.draws = some (t, cfg) := by
  unfold specialResultOf at h
  by_cases hl : lastSpecial u = true
  · rw [if_pos hl] at h
    cases h
  · rw [if_neg hl] at h
    exact ⟨Bool.not_eq_true _ ▸ hl, h⟩

theorem newOrder_active_none {cat : Catalog} {u : User} {r : GenRand} {u1 : User}
    (hua : u.active_order = none) (h : newOrder cat u r = some u1)
    (h1 : u1.active_order = none) :
    u1 = { u with has_second_chef_done := true, next_order_half := true } := by
  unfold newOrder at h
  cases hspec : specialResultOf u r with
  | none =>
    simp only [hspec] at h
    obtain ⟨ds, _, _, hcase⟩ := regularBranch_some h
    rcases hcase with ⟨_, rfl⟩ | ⟨_, rfl⟩ <;> exact absurd h1 (by simp)
  | some p =>
    obtain ⟨t, cfg⟩ := p
    simp only [hspec] at h
    cases htype : cfg.type with
    | double_previous =>
      simp only [htype] at h
      cases hlo : u.last_order with
      | some lo =>
        simp only [hlo] at h
        obtain rfl := Option.some.inj h
        exact absurd h1 (by simp)
      | none =>
        simp only [hlo] at h
        obtain ⟨ds, _, _, hcase⟩ := regularBranch_some h
        rcases hcase with ⟨_, rfl⟩ | ⟨_, rfl⟩ <;> exact absurd h1 (by simp)
    | half_next =>
      simp only [htype] at h
      exact (Option.some.inj h).symm
    | regular =>
      simp only [htype] at h
      obtain rfl := Option.some.inj h
      exact absurd h1 (by simp)

/-- Invariant carried between generate→complete cycles: the user has no
active order, and any persisted last order has a non-empty dish list
(`save_last_order` is only invoked on non-empty dish lists). -/
def UserInv (u : User) : Prop :=
  u.active_order = none ∧ ∀ lo, u.last_order = some lo → lo.dishes ≠ []

theorem cycle_none_emission {cat : Catalog} {u : User} {r : GenRand} {u' : User}
    (hinv : UserInv u) (h : cycle cat u r = some (u', none)) :
    u' = { u with has_second_chef_done := true, next_order_half := true } := by
  unfold cycle at h
  cases hn : newOrder cat u r with
  | none => rw [hn] at h; cases h
  | some u1 =>
    simp only [hn] at h
    cases hao : u1.active_order with
    | none =>
      simp only [hao] at h
      obtain ⟨he, _⟩ := Prod.mk.injEq .. ▸ Option.some.inj h
      exact he ▸ newOrder_active_none hinv.1 hn hao
    | some ao =>
      simp only [hao] at h
      obtain ⟨_, he2⟩ := Prod.mk.injEq .. ▸ Option.some.inj h
      cases he2

theorem cycle_some_emission {cat : Catalog} {u : User} {r : GenRand} {u' : User}
    {tg : Option String} (hinv : UserInv u)
    (h : cycle cat u r = some (u', some tg)) :
    UserInv u' ∧
    (∀ t, tg = some t → lastSpecial u' = true) ∧
    (lastSpecial u = true → tg = none) := by
  unfold cycle at h
  cases hn : newOrder cat u r with
  | none => rw [hn] at h; cases h
  | some u1 =>
    simp only [hn] at h
    cases hao : u1.active_order with
    | none =>
      simp only [hao] at h
      obtain ⟨_, he2⟩ := Prod.mk.injEq .. ▸ Option.some.inj h
      cases he2
    | some ao =>
      simp only [hao] at h
      obtain ⟨he, he2⟩ := Prod.mk.injEq .. ▸ Option.some.inj h
      obtain rfl := Option.some.inj he2
      have hframe := newOrder_frame hn
      have hfin := finish_user_parts u1 ao.tag (orderTotal ao.dishes)
      have hflast := finish_last_order u1 ao.tag (orderTotal ao.dishes)
      simp only [hao] at hflast
      -- dish list of a *tagged* active order is non-empty
      have htagged_ne : ∀ t, ao.tag = some t → ao.dishes ≠ [] := by
        intro t ht
        rcases newOrder_tag_source hinv.1 hn hao with hnone | ⟨t', cfg, hsp, htag, hnh, hdp, hreg⟩
        · rw [hnone] at ht; cases ht
        · have hmem := (check_special_order_sound (specialResultOf_some hsp).2).1
          have htable := special_orders_table _ hmem
          cases hty : cfg.type with
          | double_previous =>
            obtain ⟨lo, hlo, hdish⟩ := hdp hty
            have := hinv.2 lo hlo
            rw [hdish]
            intro hmap
            rw [doubleDishes, List.map_eq_nil_iff] at hmap
            exact this hmap
          | regular =>
            have hd := hreg hty
            have hds := htable.1 hty
            cases hdish : cfg.dish with
            | none => rw [hdish] at hds; cases hds
            | some d0 =>
              rw [hd, hdish]
              simp
          | half_next => exact absurd hty hnh
      refine ⟨⟨?_, ?_⟩, ?_, ?_⟩
      · rw [← he]
        exact hfin.2.2.2
      · intro lo hlo
        rw [← he] at hlo
        rw [hflast] at hlo
        by_cases hd : ao.dishes = []
        · rw [if_pos hd] at hlo
          exact hinv.2 lo (hframe.2.2.2.1 ▸ hlo)
        · rw [if_neg hd] at hlo
          obtain rfl := Option.some.inj hlo
          exact hd
      · intro t ht
        have hne := htagged_ne t ht
        unfold lastSpecial
        rw [← he, hflast, if_neg hne, hfin.1, hframe.2.1]
        simp [ht]
      · intro hls
        have hspec := specialResultOf_of_lastSpecial (r := r) hls
        rcases newOrder_tag_source hinv.1 hn hao with hnone | ⟨t', cfg, hsp, _, _, _, _⟩
        · exact hnone
        · rw [hspec] at hsp
          cases hsp

theorem runCycles_cons (cat : Catalog) (u : User) (r : GenRand) (rs : List GenRand) :
    runCycles cat u (r :: rs) =
      (match cycle cat u r with
       | none => []
       | some (u', none) => runCycles cat u' rs
       | some (u', some t) => t :: runCycles cat u' rs) := rfl

theorem runCycles_chain (cat : Catalog) :
    ∀ (rs : List GenRand) (u : User), UserInv u →
      List.Chain' (fun a b : Option String => a = none ∨ b = none)
        (runCycles cat u rs) ∧
      (lastSpecial u = true →
        ∀ t tl, runCycles cat u rs = t :: tl → t = none) := by
  intro rs
  induction rs with
  | nil =>
    intro u _
    exact ⟨List.chain'_nil, fun _ t tl hh => by cases hh⟩
  | cons r rs ih =>
    intro u hinv
    rcases hc : cycle cat u r with _ | ⟨u', otg⟩
    · rw [runCycles_cons]
      rw [hc]
      exact ⟨List.chain'_nil, fun _ t tl hh => by cases hh⟩
    · cases otg with
      | none =>
        obtain rfl := cycle_none_emission hinv hc
        have hinv' : UserInv
            { u with has_second_chef_done := true, next_order_half := true } :=
          ⟨hinv.1, hinv.2⟩
        have hls : lastSpecial
            { u with has_second_chef_done := true, next_order_half := true } =
            lastSpecial u := rfl
        rw [runCycles_cons, hc]
        exact ⟨(ih _ hinv').1, fun hl t tl hh => (ih _ hinv').2 (hls ▸ hl) t tl hh⟩
      | some tg =>
        obtain ⟨hinv', hsome, hnone⟩ := cycle_some_emission hinv hc
        rw [runCycles_cons, hc]
        constructor
        · rw [List.chain'_cons']
          refine ⟨?_, (ih _ hinv').1⟩
          intro b hb
          cases htg : tg with
          | none => exact Or.inl rfl
          | some t =>
            refine Or.inr ?_
            cases hrest : runCycles cat u' rs with
            | nil => rw [hrest] at hb; cases hb
            | cons b0 bs =>
              rw [hrest] at hb
              simp only [List.head?_cons, Option.mem_def, Option.some.injEq] at hb
              rw [← hb]
              exact (ih _ hinv').2 (hsome t htg) b0 bs hrest
        · intro hl t tl hh
          simp only [List.cons.injEq] at hh
          rw [← hh.1]
          exact hnone hl

/-! ## Concrete data for witnesses and counterexamples -/

/-- A small concrete catalog: levels 0..3 populated (level 0 with three
dishes, as the spec's fallback-filler invariant requires), nothing above. -/
def exCatalog : Catalog := fun l =>
  if l = 0 then some [⟨"A", 5⟩, ⟨"B", 5⟩, ⟨"C", 4⟩]
  else if l = 1 then some [⟨"D", 2⟩]
  else if l = 2 then some [⟨"E", 3⟩]
  else if l = 3 then some [⟨"F", 4⟩]
  else none

/-- A freshly created user row (all defaults of the `users` table). -/
def freshUser : User :=
  { level := 0, total_orders := 0, total_crosses := 0,
    has_student_done := false, has_critic_done := false,
    has_dirty_plate_done := false, has_second_chef_done := false,
    next_order_half := false, last_order := none, active_order := none }

/-- A user four completed orders in (order index 5, inside every event's
eligibility window). -/
def scUser : User := { freshUser with total_orders := 4 }

/-- Randomness making only the second-chef probability draw succeed. -/
def scRand : GenRand :=
  ⟨fun t => t == "second_chef", ⟨"A", 5⟩, [⟨"B", 5⟩, ⟨"C", 4⟩]⟩

/-- Randomness with every probability draw failing. -/
def regRand : GenRand := ⟨fun _ => false, ⟨"A", 5⟩, [⟨"B", 5⟩, ⟨"C", 4⟩]⟩

/-- The state after the second-chef event fired for `scUser`. -/
def halfUser : User :=
  { scUser with has_second_chef_done := true, next_order_half := true }

/-! ## C4 — level-up arithmetic of `finish_order_and_level` -/

theorem finish_result_parts (u : User) (tag : Option String) (c : Nat) :
    (finish_order_and_level u tag c).2.total = u.total_orders + 1 ∧
    (finish_order_and_level u tag c).2.total_crosses = u.total_crosses + c ∧
    ((finish_order_and_level u tag c).2.level_changed = true ↔
      ((finish_order_and_level u tag c).1).level ≠ u.level) := by
  simp [finish_order_and_level]

/-- C4: on completion the level increments by exactly 1 iff the new
`total_orders` is a multiple of `ORDERS_PER_LEVEL` and the level is below
`MAX_LEVEL`; it never changes by more than 1, never decreases, at
`MAX_LEVEL` it never changes, the returned `level_changed` flag reports
exactly a level change, and the returned total is the incremented count. -/
theorem C4_level_up (u : User) (tag : Option String) (c : Nat) :
    (((finish_order_and_level u tag c).1).level = u.level + 1 ↔
      ((u.total_orders + 1) % ORDERS_PER_LEVEL = 0 ∧ u.level < MAX_LEVEL)) ∧
    (((finish_order_and_level u tag c).1).level = u.level ∨
      ((finish_order_and_level u tag c).1).level = u.level + 1) ∧
    u.level ≤ ((finish_order_and_level u tag c).1).level ∧
    (MAX_LEVEL ≤ u.level → ((finish_order_and_level u tag c).1).level = u.level) ∧
    ((finish_order_and_level u tag c).2.level_changed = true ↔
      ((finish_order_and_level u tag c).1).level ≠ u.level) ∧
    (finish_order_and_level u tag c).2.total = u.total_orders + 1 := by
  have hl := (finish_user_parts u tag c).2.2.1
  have hres := finish_result_parts u tag c
  refine ⟨⟨?_, ?_⟩, ?_, ?_, ?_, hres.2.2, hres.1⟩
  · intro h
    by_contra hcond
    rw [hl, if_neg hcond] at h
    omega
  · intro hcond
    rw [hl, if_pos hcond]
  · rw [hl]
    split_ifs with h
    · exact Or.inr rfl
    · exact Or.inl rfl
  · rw [hl]
    split_ifs with h
    · omega
    · exact Nat.le_refl _
  · intro hmax
    rw [hl]
    have : ¬((u.total_orders + 1) % ORDERS_PER_LEVEL = 0 ∧ u.level < MAX_LEVEL) := by
      rintro ⟨_, hlt⟩
      omega
    rw [if_neg this]

/-- Witness for C4 at the spec's example: `total_orders` 9→10 at level 0
levels up to 1 with `level_changed` reported. -/
theorem C4_witness :
    ((finish_order_and_level { freshUser with total_orders := 9 } none 5).1).level =
      ({ freshUser with total_orders := 9 } : User).level + 1 ∧
    (finish_order_and_level { freshUser with total_orders := 9 } none 5).2.level_changed = true :=
  ⟨(C4_level_up { freshUser with total_orders := 9 } none 5).1.mpr (by decide),
   (C4_level_up { freshUser with total_orders := 9 } none 5).2.2.2.2.1.mpr (by decide)⟩

/-! ## C6 — current-dish pool selection -/

/-- Modelled from the spec: the dish catalog `data/dishes.py`
(`DISHES_BY_LEVEL`) is not among the sources.  Spec §4.1, steps 1 and 3:
compute `dish_level = min(user.level, 3)` and pick the current dish from
the pool at exactly `dish_level`, "falling back to level 0's pool if
`dish_level` has no entries". -/
def specDishLevelPool (cat : Catalog) (level : Nat) : List Dish :=
  let p := (cat (min level 3)).getD []
  if p = [] then (cat 0).getD [] else p

/-- C6 counterexample: at level 4 (reachable, `MAX_LEVEL = 4`) the code's
`DISHES_BY_LEVEL.get(level, DISHES_BY_LEVEL[0])` falls back to the level-0
pool, not to the `min(level, 3) = 3` pool the claim describes. -/
theorem C6_counterexample :
    currentPool exCatalog 4 ≠ specDishLevelPool exCatalog 4 ∧
    currentPool exCatalog 4 = (exCatalog 0).getD [] := by
  constructor
  · decide
  · decide

/-- C6 amended: the current-dish pool is the pool at the user's *exact*
level whenever the catalog has an entry there (which for a catalog with
entries exactly at levels 0..3 coincides with `min(level, 3)` for levels
0..3), and for any level above 3 the code falls back to the level-0 pool
(not the level-3 pool). -/
theorem C6_pool_selection (cat : Catalog)
    (hkeys : ∀ l, (cat l).isSome = true ↔ l ≤ 3)
    (hne : ∀ l p, cat l = some p → p ≠ []) :
    (∀ level, level ≤ 3 → currentPool cat level = specDishLevelPool cat level) ∧
    (∀ level, 3 < level → currentPool cat level = (cat 0).getD []) := by
  constructor
  · intro level hlev
    obtain ⟨p, hp⟩ := Option.isSome_iff_exists.mp ((hkeys level).mpr hlev)
    have hpe := hne level p hp
    unfold currentPool specDishLevelPool
    rw [Nat.min_eq_left hlev, hp, Option.getD_some, Option.getD_some, if_neg hpe]
  · intro level hlev
    have : (cat level).isSome ≠ true := by
      intro hs
      exact absurd ((hkeys level).mp hs) (by omega)
    have hnone : cat level = none := by
      cases hcl : cat level with
      | none => rfl
      | some p => rw [hcl] at this; exact absurd rfl this
    unfold currentPool
    rw [hnone, Option.getD_none]

/-- Witness for C6 amended at the concrete catalog. -/
theorem C6_witness :
    currentPool exCatalog 2 = specDishLevelPool exCatalog 2 ∧
    currentPool exCatalog 4 = (exCatalog 0).getD [] := by
  have hkeys : ∀ l, (exCatalog l).isSome = true ↔ l ≤ 3 := by
    intro l
    unfold exCatalog
    split_ifs with h0 h1 h2 h3 <;> simp <;> omega
  have hne : ∀ l p, exCatalog l = some p → p ≠ [] := by
    intro l p h
    unfold exCatalog at h
    split_ifs at h <;> cases h <;> simp
  exact ⟨(C6_pool_selection exCatalog hkeys hne).1 2 (by decide),
    (C6_pool_selection exCatalog hkeys hne).2 4 (by decide)⟩

/-! ## C8 — shape of a regular order -/

theorem generate_some_nodup {cat : Catalog} {level : Nat} {cur : Dish}
    {shuffled ds : List Dish}
    (h : generate_regular_order cat level cur shuffled = some ds) : ds.Nodup := by
  simp only [generate_regular_order] at h
  have h1 := takeLoop_spec shuffled [cur] (by simp) (by simp)
  have h2 := padPass_spec ((cat 0).getD []) (takeLoop [cur] shuffled) h1.1
  split_ifs at h with ha hb
  · have hds := Option.some.inj h
    rw [← hds]
    exact (List.take_sublist _ _).nodup h2.1
  · have hds := Option.some.inj h
    rw [← hds]
    exact (List.take_sublist _ _).nodup h1.1

/-- C8: for every level `L ≤ 3`, for every valid randomness draw, under
the spec's catalog invariants (globally distinct dish names, ≥ 3 opened
dishes, every catalog dish worth ≥ 1 cross — modelled from the spec since
`data/dishes.py` is not among the sources), the regular order has exactly
3 dishes, pairwise distinct names, every dish ≥ 1 cross, and contains a
dish drawn from a pool at some level ≤ min(L, 3). -/
theorem C8_regular_order_shape (cat : Catalog) (L : Nat) (hL : L ≤ 3)
    (cur : Dish) (shuffled : List Dish)
    (hcur : cur ∈ currentPool cat L)
    (hsh : shuffled.Perm ((openedPool cat L).filter (fun d => d ≠ cur)))
    (hnames : ((openedPool cat L).map Dish.name).Nodup)
    (hlen : 3 ≤ (openedPool cat L).length)
    (hcross : ∀ d ∈ openedPool cat L, 1 ≤ d.crosses) :
    ∃ ds, generate_regular_order cat L cur shuffled = some ds ∧
      ds.length = 3 ∧ (ds.map Dish.name).Nodup ∧ (∀ d ∈ ds, 1 ≤ d.crosses) ∧
      ∃ d ∈ ds, ∃ lv, lv ≤ min L 3 ∧ d ∈ (cat lv).getD [] := by
  have hnodup : (openedPool cat L).Nodup := hnames.of_map
  have hcard : 3 ≤ (openedPool cat L).toFinset.card := by
    rw [List.toFinset_card_of_nodup hnodup]
    exact hlen
  obtain ⟨ds, hds⟩ := (generate_isSome_iff hcur hsh).mpr hcard
  have hsub : ∀ d ∈ ds, d ∈ openedPool cat L := by
    intro d hd
    rcases generate_some_subset hds d hd with rfl | hmem | hmem
    · exact cur_mem_openedPool hcur
    · have := hsh.subset hmem
      exact List.mem_of_mem_filter this
    · exact lvl0_subset_openedPool hmem
  refine ⟨ds, hds, generate_some_length hds, ?_, fun d hd => hcross d (hsub d hd), ?_⟩
  · refine (generate_some_nodup hds).map_on ?_
    intro x hx y hy hxy
    exact List.inj_on_of_nodup_map hnames (hsub x hx) (hsub y hy) hxy
  · obtain ⟨tail, htail⟩ := generate_some_head hds
    refine ⟨cur, by rw [htail]; exact List.mem_cons_self _ _, ?_⟩
    unfold currentPool at hcur
    cases hc : cat L with
    | some p =>
      rw [hc, Option.getD_some] at hcur
      exact ⟨L, by omega, by rw [hc, Option.getD_some]; exact hcur⟩
    | none =>
      rw [hc, Option.getD_none] at hcur
      exact ⟨0, by omega, hcur⟩

/-- Witness for C8 at the concrete catalog, level 0. -/
theorem C8_witness :
    ∃ ds, generate_regular_order exCatalog 0 ⟨"A", 5⟩ [⟨"B", 5⟩, ⟨"C", 4⟩] = some ds ∧
      ds.length = 3 ∧ (ds.map Dish.name).Nodup ∧ (∀ d ∈ ds, 1 ≤ d.crosses) ∧
      ∃ d ∈ ds, ∃ lv, lv ≤ min 0 3 ∧ d ∈ (exCatalog lv).getD [] :=
  C8_regular_order_shape exCatalog 0 (by decide) ⟨"A", 5⟩ [⟨"B", 5⟩, ⟨"C", 4⟩]
    (by decide) (by decide) (by decide) (by decide) (by decide)

/-! ## C10 — termination of the regular generator -/

/-- C10: for every level and valid randomness draw, the regular generator
returns (rather than looping forever in the deterministic level-0 padding
loop) exactly when the combined opened pools (levels 0..level) contain at
least 3 dishes distinct under tuple equality. -/
theorem C10_generate_terminates_iff (cat : Catalog) (level : Nat) (cur : Dish)
    (shuffled : List Dish)
    (hcur : cur ∈ currentPool cat level)
    (hsh : shuffled.Perm ((openedPool cat level).filter (fun d => d ≠ cur))) :
    (∃ ds, generate_regular_order cat level cur shuffled = some ds) ↔
      3 ≤ (openedPool cat level).toFinset.card :=
  generate_isSome_iff hcur hsh

/-- Witness for C10: a 3-dish pool terminates; a 2-dish pool does not. -/
theorem C10_witness :
    (∃ ds, generate_regular_order exCatalog 0 ⟨"A", 5⟩ [⟨"B", 5⟩, ⟨"C", 4⟩] = some ds) ∧
    ¬(∃ ds, generate_regular_order
        (fun l => if l = 0 then some [⟨"A", 5⟩, ⟨"B", 5⟩] else none) 0
        ⟨"A", 5⟩ [⟨"B", 5⟩] = some ds) := by
  constructor
  · exact (C10_generate_terminates_iff exCatalog 0 ⟨"A", 5⟩ [⟨"B", 5⟩, ⟨"C", 4⟩]
      (by decide) (by decide)).mpr (by decide)
  · intro hex
    have := (C10_generate_terminates_iff
      (fun l => if l = 0 then some [⟨"A", 5⟩, ⟨"B", 5⟩] else none) 0
      ⟨"A", 5⟩ [⟨"B", 5⟩] (by decide) (by decide)).mp hex
    revert this
    decide

/-! ## C7 — one-time flags are monotone and gate re-triggering -/

/-- Pointwise ordering of the four one-time flags: every flag that is set
stays set. -/
def flagsLe (u u' : User) : Prop :=
  (u.has_student_done = true → u'.has_student_done = true) ∧
  (u.has_critic_done = true → u'.has_critic_done = true) ∧
  (u.has_dirty_plate_done = true → u'.has_dirty_plate_done = true) ∧
  (u.has_second_chef_done = true → u'.has_second_chef_done = true)

theorem setFlag_mono (u : User) (tag : Option String) :
    flagsLe u (setFlagFromTag u tag) := by
  unfold flagsLe setFlagFromTag
  split_ifs <;>
    exact ⟨fun h => by simp [h], fun h => by simp [h],
      fun h => by simp [h], fun h => by simp [h]⟩

theorem finish_flags_mono (u : User) (tag : Option String) (c : Nat) :
    flagsLe u (finish_order_and_level u tag c).1 := by
  have hf := finish_flags u tag c
  have hm := setFlag_mono u tag
  exact ⟨fun h => hf.1 ▸ hm.1 h, fun h => hf.2.1 ▸ hm.2.1 h,
    fun h => hf.2.2.1 ▸ hm.2.2.1 h, fun h => hf.2.2.2 ▸ hm.2.2.2 h⟩

theorem newOrder_flags_mono {cat : Catalog} {u : User} {r : GenRand} {u' : User}
    (h : newOrder cat u r = some u') : flagsLe u u' := by
  have hf := newOrder_frame h
  refine ⟨fun hh => hf.2.2.2.2.1 ▸ hh, fun hh => hf.2.2.2.2.2.1 ▸ hh,
    fun hh => hf.2.2.2.2.2.2 ▸ hh, ?_⟩
  intro hh
  unfold newOrder at h
  cases hspec : specialResultOf u r with
  | none =>
    simp only [hspec] at h
    obtain ⟨ds, _, _, hcase⟩ := regularBranch_some h
    rcases hcase with ⟨_, rfl⟩ | ⟨_, rfl⟩ <;> exact hh
  | some p =>
    obtain ⟨t, cfg⟩ := p
    simp only [hspec] at h
    cases htype : cfg.type with
    | double_previous =>
      simp only [htype] at h
      cases hlo : u.last_order with
      | some lo =>
        simp only [hlo] at h
        obtain rfl := Option.some.inj h
        exact hh
      | none =>
        simp only [hlo] at h
        obtain ⟨ds, _, _, hcase⟩ := regularBranch_some h
        rcases hcase with ⟨_, rfl⟩ | ⟨_, rfl⟩ <;> exact hh
    | half_next =>
      simp only [htype] at h
      obtain rfl := Option.some.inj h
      rfl
    | regular =>
      simp only [htype] at h
      obtain rfl := Option.some.inj h
      exact hh

/-- C7: (i) a triggering special event always has its one-time flag unset;
(ii)–(v) per event: once the flag is set, `check_special_order` never
returns that event again, whatever the order index and probability draws;
(vi) completion only ever raises flags; (vii) order generation only ever
raises flags. -/
theorem C7_one_time_flags :
    (∀ idx flags draws t cfg,
        check_special_order idx flags draws = some (t, cfg) →
          getFlag flags cfg.user_flag = false) ∧
    (∀ idx flags draws cfg, flags.has_student_done = true →
        check_special_order idx flags draws ≠ some ("student", cfg)) ∧
    (∀ idx flags draws cfg, flags.has_critic_done = true →
        check_special_order idx flags draws ≠ some ("critic", cfg)) ∧
    (∀ idx flags draws cfg, flags.has_dirty_plate_done = true →
        check_special_order idx flags draws ≠ some ("dirty_plate", cfg)) ∧
    (∀ idx flags draws cfg, flags.has_second_chef_done = true →
        check_special_order idx flags draws ≠ some ("second_chef", cfg)) ∧
    (∀ u tag c, flagsLe u (finish_order_and_level u tag c).1) ∧
    (∀ cat u r u', newOrder cat u r = some u' → flagsLe u u') := by
  refine ⟨?_, ?_, ?_, ?_, ?_, finish_flags_mono, fun _ _ _ _ h => newOrder_flags_mono h⟩
  · intro idx flags draws t cfg h
    exact (check_special_order_sound h).2
  · intro idx flags draws cfg hset h
    obtain ⟨hmem, hflag⟩ := check_special_order_sound h
    have hf := (special_orders_table _ hmem).2.2.2.1 rfl
    rw [hf] at hflag
    simp [getFlag, hset] at hflag
  · intro idx flags draws cfg hset h
    obtain ⟨hmem, hflag⟩ := check_special_order_sound h
    have hf := (special_orders_table _ hmem).2.2.2.2.1 rfl
    rw [hf] at hflag
    simp [getFlag, hset] at hflag
  · intro idx flags draws cfg hset h
    obtain ⟨hmem, hflag⟩ := check_special_order_sound h
    have hf := (special_orders_table _ hmem).2.2.2.2.2.1 rfl
    rw [hf] at hflag
    simp [getFlag, hset] at hflag
  · intro idx flags draws cfg hset h
    obtain ⟨hmem, hflag⟩ := check_special_order_sound h
    have hf := (special_orders_table _ hmem).2.2.2.2.2.2 rfl
    rw [hf] at hflag
    simp [getFlag, hset] at hflag

/-- Witness for C7: with `has_student_done` set and every draw succeeding
("probability forced to 1.0"), the student event is never returned; and a
completion with the critic tag only raises flags for a concrete user. -/
theorem C7_witness :
    (∀ cfg, check_special_order 5 ⟨true, false, false, false⟩ (fun _ => true) ≠
      some ("student", cfg)) ∧
    flagsLe scUser (finish_order_and_level scUser (some "critic") 5).1 :=
  ⟨fun cfg => C7_one_time_flags.2.1 5 ⟨true, false, false, false⟩ (fun _ => true) cfg rfl,
   C7_one_time_flags.2.2.2.2.2.1 scUser (some "critic") 5⟩

/-! ## C2 — special events never chain back-to-back -/

/-- C2: starting from any user with no active order whose stored last
order (if any) has dishes, over any number of generate→complete cycles
with any randomness, the sequence of completed-order tags never has two
consecutive non-none entries. -/
theorem C2_no_consecutive_specials (cat : Catalog) (u : User) (rs : List GenRand)
    (hactive : u.active_order = none)
    (hlast : ∀ lo, u.last_order = some lo → lo.dishes ≠ []) :
    List.Chain' (fun a b : Option String => ¬(a.isSome = true ∧ b.isSome = true))
      (runCycles cat u rs) := by
  have h := (runCycles_chain cat rs u ⟨hactive, hlast⟩).1
  refine List.Chain'.imp ?_ h
  intro a b hab
  rintro ⟨ha, hb⟩
  rcases hab with rfl | rfl
  · simp at ha
  · simp at hb

/-- Witness for C2: a concrete three-cycle run (all probability draws
succeeding) from a fresh-but-eligible user. -/
theorem C2_witness :
    List.Chain' (fun a b : Option String => ¬(a.isSome = true ∧ b.isSome = true))
      (runCycles exCatalog scUser
        [⟨fun _ => true, ⟨"A", 5⟩, [⟨"B", 5⟩, ⟨"C", 4⟩]⟩,
         ⟨fun _ => true, ⟨"A", 5⟩, [⟨"B", 5⟩, ⟨"C", 4⟩]⟩,
         ⟨fun _ => true, ⟨"A", 5⟩, [⟨"B", 5⟩, ⟨"C", 4⟩]⟩]) :=
  C2_no_consecutive_specials exCatalog scUser _ rfl (fun lo h => by cases h)

/-! ## C3 — side effects of order generation -/

/-- C3 counterexample: when the second-chef event triggers, order
generation itself flips the persisted one-time flag `has_second_chef_done`
from 0 to 1 (and sets `next_order_half`), contradicting "leaves all
persisted user fields (… one-time flags …) unchanged". -/
theorem C3_counterexample :
    scUser.has_second_chef_done = false ∧
    newOrder exCatalog scUser scRand = some halfUser ∧
    halfUser.has_second_chef_done = true := by
  refine ⟨rfl, ?_, rfl⟩
  decide

/-- C3 amended: generation leaves `level`, `total_orders`, `total_crosses`,
the last order, and the student/critic/dirty-plate flags unchanged; it may
however set `has_second_chef_done` and `next_order_half` (second-chef
trigger), clear `next_order_half` (halved order), and it persists the
produced order as the active order itself. -/
theorem C3_generation_frame (cat : Catalog) (u : User) (r : GenRand) (u' : User)
    (h : newOrder cat u r = some u') :
    u'.level = u.level ∧ u'.total_orders = u.total_orders ∧
    u'.total_crosses = u.total_crosses ∧ u'.last_order = u.last_order ∧
    u'.has_student_done = u.has_student_done ∧
    u'.has_critic_done = u.has_critic_done ∧
    u'.has_dirty_plate_done = u.has_dirty_plate_done :=
  newOrder_frame h

/-- Witness for C3 amended at the second-chef trigger input. -/
theorem C3_witness :
    halfUser.level = scUser.level ∧ halfUser.total_orders = scUser.total_orders ∧
    halfUser.total_crosses = scUser.total_crosses ∧
    halfUser.last_order = scUser.last_order ∧
    halfUser.has_student_done = scUser.has_student_done ∧
    halfUser.has_critic_done = scUser.has_critic_done ∧
    halfUser.has_dirty_plate_done = scUser.has_dirty_plate_done :=
  C3_generation_frame exCatalog scUser scRand halfUser (by decide)

/-! ## C1 — the second-chef ("half") special event -/

/-- C1 counterexample: at a concrete input where the second-chef event
applies, the code generates *no* order at all (it only sets two flags), so
no order carrying the event's tag exists; the *next* regular order is then
halved per-dish but carries tag `none` and totals 6 ≠ 14 / 2 = 7 — so the
claimed immediately-generated, event-tagged, exactly-half order does not
exist. -/
theorem C1_counterexample :
    specialResultOf scUser scRand =
      some ("second_chef",
        { dish := none, probability := 12, min_order_index := 3,
          max_order_index := 40, user_flag := "has_second_chef_done",
          type := .half_next }) ∧
    newOrder exCatalog scUser scRand = some halfUser ∧
    halfUser.active_order = none ∧
    generate_regular_order exCatalog 0 ⟨"A", 5⟩ [⟨"B", 5⟩, ⟨"C", 4⟩] =
      some [⟨"A", 5⟩, ⟨"B", 5⟩, ⟨"C", 4⟩] ∧
    orderTotal [⟨"A", 5⟩, ⟨"B", 5⟩, ⟨"C", 4⟩] = 14 ∧
    newOrder exCatalog halfUser regRand =
      some { halfUser with
               next_order_half := false,
               active_order := some ⟨[⟨"A", 2⟩, ⟨"B", 2⟩, ⟨"C", 2⟩], none⟩ } ∧
    orderTotal [⟨"A", 2⟩, ⟨"B", 2⟩, ⟨"C", 2⟩] = 6 ∧ (6 : Nat) ≠ 14 / 2 := by
  decide

/-- C1 amended: a triggering second-chef event generates no order — it
sets `has_second_chef_done` and `next_order_half` and returns; the *next*
regular generation then halves each dish's crosses by floored division
with a minimum of 1, clears the flag, stores the order with *no* tag, and
performs no rounding adjustment: the total is simply the sum of the
floored halves (each ≥ 1). -/
theorem C1_half_next_behaviour (cat : Catalog) (u : User) (r : GenRand)
    (t : String) (cfg : SpecialConfig) :
    (specialResultOf u r = some (t, cfg) → cfg.type = SpecialType.half_next →
      newOrder cat u r =
        some { u with has_second_chef_done := true, next_order_half := true }) ∧
    (specialResultOf u r = none → u.next_order_half = true →
      ∀ ds, generate_regular_order cat u.level r.cur r.shuffled = some ds →
        newOrder cat u r = some { u with
          next_order_half := false,
          active_order := some ⟨halveDishes ds, none⟩ } ∧
        (∀ d ∈ halveDishes ds, 1 ≤ d.crosses) ∧
        orderTotal (halveDishes ds) =
          (ds.map (fun d => max 1 (d.crosses / 2))).sum) := by
  constructor
  · intro hspec htype
    simp only [newOrder, hspec, htype]
  · intro hspec hnext ds hg
    refine ⟨?_, ?_, ?_⟩
    · simp only [newOrder, hspec, regularBranch, hg, hnext, if_true]
    · intro d hd
      unfold halveDishes at hd
      obtain ⟨d0, _, rfl⟩ := List.mem_map.mp hd
      exact Nat.le_max_left 1 _
    · unfold orderTotal halveDishes
      rw [List.map_map]
      rfl

/-- Witness for C1 amended: both branches at the concrete inputs. -/
theorem C1_witness :
    newOrder exCatalog scUser scRand = some halfUser ∧
    newOrder exCatalog halfUser regRand =
      some { halfUser with
               next_order_half := false,
               active_order := some ⟨halveDishes [⟨"A", 5⟩, ⟨"B", 5⟩, ⟨"C", 4⟩], none⟩ } :=
  ⟨(C1_half_next_behaviour exCatalog scUser scRand "second_chef"
      { dish := none, probability := 12, min_order_index := 3,
        max_order_index := 40, user_flag := "has_second_chef_done",
        type := .half_next }).1 (by decide) rfl,
   ((C1_half_next_behaviour exCatalog halfUser regRand ""
      { dish := none, probability := 0, min_order_index := 0,
        max_order_index := 0, user_flag := "", type := .regular }).2
      (by decide) rfl [⟨"A", 5⟩, ⟨"B", 5⟩, ⟨"C", 4⟩] (by decide)).1⟩

/-! ## C9 — the dirty-plate ("double previous") special event -/

/-- C9: a triggering `double_previous` event is the dirty-plate event;
with a last order present it saves exactly the last order's dishes with
crosses doubled and names unchanged, tagged with the event's tag; with no
last order it falls through to the regular branch instead of failing. -/
theorem C9_double_previous (cat : Catalog) (u : User) (r : GenRand)
    (t : String) (cfg : SpecialConfig)
    (hspec : specialResultOf u r = some (t, cfg))
    (htype : cfg.type = SpecialType.double_previous) :
    t = "dirty_plate" ∧
    (∀ lo, u.last_order = some lo →
      newOrder cat u r = some { u with
        active_order := some ⟨lo.dishes.map (fun d => ⟨d.name, d.crosses * 2⟩), some t⟩ }) ∧
    (u.last_order = none → newOrder cat u r = regularBranch cat u r) := by
  have hmem := (check_special_order_sound (specialResultOf_some hspec).2).1
  refine ⟨(special_orders_table _ hmem).2.1 htype, ?_, ?_⟩
  · intro lo hlo
    simp only [newOrder, hspec, htype, hlo, doubleDishes]
  · intro hlo
    simp only [newOrder, hspec, htype, hlo]

/-- Witness for C9 at the spec's example: last order
`[("A",10),("B",20)]` doubles to `[("A",20),("B",40)]` with the
dirty-plate tag. -/
theorem C9_witness :
    newOrder exCatalog
      { scUser with last_order := some ⟨[⟨"A", 10⟩, ⟨"B", 20⟩], 30, none⟩ }
      ⟨fun t => t == "dirty_plate", ⟨"A", 5⟩, [⟨"B", 5⟩, ⟨"C", 4⟩]⟩ =
    some { { scUser with last_order := some ⟨[⟨"A", 10⟩, ⟨"B", 20⟩], 30, none⟩ } with
      active_order := some ⟨[⟨"A", 20⟩, ⟨"B", 40⟩], some "dirty_plate"⟩ } :=
  (C9_double_previous exCatalog
      { scUser with last_order := some ⟨[⟨"A", 10⟩, ⟨"B", 20⟩], 30, none⟩ }
      ⟨fun t => t == "dirty_plate", ⟨"A", 5⟩, [⟨"B", 5⟩, ⟨"C", 4⟩]⟩
      "dirty_plate"
      { dish := none, probability := 15, min_order_index := 3,
        max_order_index := 40, user_flag := "has_dirty_plate_done",
        type := .double_previous }
      (by decide) rfl).2.1 ⟨[⟨"A", 10⟩, ⟨"B", 20⟩], 30, none⟩ rfl

/-! ## C5 — commit structure of order completion -/

/-- A user holding a non-empty active order, about to complete it. -/
def c5User : User :=
  { freshUser with total_orders := 4, active_order := some ⟨[⟨"A", 5⟩], none⟩ }

/-- The state `finish_order_and_level` commits first (the
`save_last_order` commit): only `last_order_json` has changed. -/
def c5Mid : User := { c5User with last_order := some ⟨[⟨"A", 5⟩], 5, none⟩ }

/-- C5 counterexample: completing `c5User` commits an intermediate state
that differs from both the initial and the final state — a failure between
the `save_last_order` commit and the main `UPDATE` leaves the row
updated in part only, contradicting the all-or-nothing claim. -/
theorem C5_counterexample :
    (finishCommits c5User none 5).dropLast = [c5Mid] ∧
    c5Mid ≠ c5User ∧ c5Mid ≠ (finish_order_and_level c5User none 5).1 := by
  decide

/-- C5 amended: `finish_order_and_level` commits in (at most) two steps:
the final commit is the fully-updated row, and every earlier committed
state differs from the initial row only in `last_order` (all counters,
flags and the active order are untouched); when the active order is absent
or empty there is no earlier commit at all, and the write is a single
all-or-nothing update. -/
theorem C5_commit_structure (u : User) (tag : Option String) (c : Nat) :
    (finishCommits u tag c).getLast? = some (finish_order_and_level u tag c).1 ∧
    (∀ s ∈ (finishCommits u tag c).dropLast,
      s.level = u.level ∧ s.total_orders = u.total_orders ∧
      s.total_crosses = u.total_crosses ∧ s.active_order = u.active_order ∧
      s.has_student_done = u.has_student_done ∧
      s.has_critic_done = u.has_critic_done ∧
      s.has_dirty_plate_done = u.has_dirty_plate_done ∧
      s.has_second_chef_done = u.has_second_chef_done ∧
      s.next_order_half = u.next_order_half) ∧
    ((match u.active_order with
      | some ao => ao.dishes = []
      | none => True) → (finishCommits u tag c).dropLast = []) := by
  cases hao : u.active_order with
  | none => simp [finishCommits, hao]
  | some ao =>
    by_cases hd : ao.dishes = []
    · simp [finishCommits, hao, hd]
    · simp only [finishCommits, hao]
      rw [if_pos (show ao.dishes ≠ [] from hd)]
      refine ⟨by simp, ?_, ?_⟩
      · intro s hs
        simp only [List.dropLast_concat, List.mem_singleton] at hs
        subst hs
        exact ⟨rfl, rfl, rfl, rfl, rfl, rfl, rfl, rfl, rfl⟩
      · intro hcontra
        exact absurd hcontra hd

/-- Witness for C5 amended at the concrete completing user. -/
theorem C5_witness :
    (finishCommits c5User none 5).getLast? =
      some (finish_order_and_level c5User none 5).1 ∧
    c5Mid.total_orders = c5User.total_orders ∧
    c5Mid.active_order = c5User.active_order :=
  ⟨(C5_commit_structure c5User none 5).1,
   ((C5_commit_structure c5User none 5).2.1 c5Mid (by decide)).2.1,
   ((C5_commit_structure c5User none 5).2.1 c5Mid (by decide)).2.2.2.1⟩

end StitchCafe
